import Mathlib

/-!
# Verification of the FSMA STORI annual-report download pipeline

Shallow embedding of `main.py` (STORI Annual Report Downloader) and
`api_client.py`.  Pure string manipulation (filename sanitization and
construction, collision resolution) is embedded as Lean functions over
`String`/`List Char`; the per-issuer download routine and the main loop
are embedded as state-passing functions over the download counter, the
set of file names present in the `downloads` directory, and an event
trace recording the search requests, the documents considered, and the
downloads performed.  Case conversion and whitespace stripping are
modelled for ASCII characters (the character class `[A-Za-z0-9_-]`
relevant to every claim is ASCII).
-/

namespace Stori

/-- Python truthiness-based defaulting `x or default` for optional strings:
`None` and the empty string are falsy. -/
def pyOr (o : Option String) (dflt : String) : String :=
  match o with
  | none => dflt
  | some s => if s = "" then dflt else s

/-- The 26 ASCII case pairs (upper, lower). -/
def asciiCasePairs : List (Char × Char) :=
  [('A', 'a'), ('B', 'b'), ('C', 'c'), ('D', 'd'), ('E', 'e'), ('F', 'f'),
   ('G', 'g'), ('H', 'h'), ('I', 'i'), ('J', 'j'), ('K', 'k'), ('L', 'l'),
   ('M', 'm'), ('N', 'n'), ('O', 'o'), ('P', 'p'), ('Q', 'q'), ('R', 'r'),
   ('S', 's'), ('T', 't'), ('U', 'u'), ('V', 'v'), ('W', 'w'), ('X', 'x'),
   ('Y', 'y'), ('Z', 'z')]

/-- ASCII model of Python `str.lower` on one character. -/
def pyLowerChar (c : Char) : Char :=
  ((asciiCasePairs.find? (fun p => p.1 == c)).map (fun p => p.2)).getD c

/-- ASCII model of Python `str.upper` on one character. -/
def pyUpperChar (c : Char) : Char :=
  ((asciiCasePairs.find? (fun p => p.2 == c)).map (fun p => p.1)).getD c

/-- Model of Python `str.lower` (ASCII fragment). -/
def pyLower (s : String) : String := ⟨s.data.map pyLowerChar⟩

/-- Model of Python `str.upper` (ASCII fragment). -/
def pyUpper (s : String) : String := ⟨s.data.map pyUpperChar⟩

/-- The whitespace characters removed by Python `str.strip` (ASCII fragment). -/
def pyIsSpace (c : Char) : Bool :=
  c == ' ' || c == '\t' || c == '\n' || c == '\r' ||
  c == Char.ofNat 11 || c == Char.ofNat 12

/-- Model of Python `str.strip()`: drop leading and trailing whitespace. -/
def pyStrip (l : List Char) : List Char :=
  ((l.dropWhile pyIsSpace).reverse.dropWhile pyIsSpace).reverse

/-- The character class `[A-Za-z0-9_-]` kept by `sanitize_for_filename`
(`re.sub(r"[^A-Za-z0-9_\-]+", "", text)` removes every other character). -/
def isClassChar (c : Char) : Bool :=
  decide ('A' ≤ c ∧ c ≤ 'Z') || decide ('a' ≤ c ∧ c ≤ 'z') ||
  decide ('0' ≤ c ∧ c ≤ '9') || c == '_' || c == '-'

/-- The three rewriting steps of `sanitize_for_filename` on a non-empty
input: strip, replace each space with an underscore, remove every character
outside `[A-Za-z0-9_-]`. -/
def sanitizeCore (text : String) : List Char :=
  ((pyStrip text.data).map (fun c => if c = ' ' then '_' else c)).filter isClassChar

/-- `main.sanitize_for_filename`: empty input maps to `"UNKNOWN"`; otherwise
apply `sanitizeCore` and fall back to `"UNKNOWN"` if nothing remains. -/
def sanitizeForFilename (text : String) : String :=
  if text = "" then "UNKNOWN"
  else if sanitizeCore text = [] then "UNKNOWN" else ⟨sanitizeCore text⟩

/-- The character class `[A-Za-z0-9_.-]` of safe filename characters used to
state the filename invariant (the sanitizer class plus the dot). -/
def isFnameChar (c : Char) : Bool :=
  isClassChar c || c == '.'

/-- The date component of `main.build_output_filename`:
`publication_iso.split("T")[0] if publication_iso else "UNKNOWN_DATE"`. -/
def datePart (publicationIso : String) : String :=
  if publicationIso = "" then "UNKNOWN_DATE"
  else ⟨publicationIso.data.takeWhile (fun c => c ≠ 'T')⟩

/-- `main.build_output_filename`: the f-string
`f"{company_part}_{lei_part}_AnnualReport_{date_part}.pdf"` where the company
part is sanitized then upper-cased and the LEI part is sanitized only. -/
def buildOutputFilename (companyName lei publicationIso : String) : String :=
  pyUpper (sanitizeForFilename companyName) ++ "_" ++ sanitizeForFilename lei ++
    "_AnnualReport_" ++ datePart publicationIso ++ ".pdf"

example : sanitizeForFilename "Acacia Pharma Group" = "Acacia_Pharma_Group" := by decide
example : buildOutputFilename "Acacia Pharma Group" "213800SLDKXWKT6E3381" "2022-04-29T10:00:00Z"
    = "ACACIA_PHARMA_GROUP_213800SLDKXWKT6E3381_AnnualReport_2022-04-29.pdf" := by decide
example : datePart "UNKNOWN_DATE" = "UNKNOWN_DA" := by decide
example : sanitizeForFilename "@ @" = "_" := by decide

/-- One downloadable document reference of a filing item, as consumed by
`download_for_issuer` (`doc.get(...)` yields `None` for an absent key; a JSON
`null` is also `None`, so both are modelled by `none`). -/
structure Doc where
  fileType? : Option String
  language? : Option String
  originalFileName? : Option String
  fileDataId? : Option String
deriving DecidableEq

/-- One filing item of a search response, as consumed by `download_for_issuer`. -/
structure Item where
  companyName? : Option String
  lei? : Option String
  datePublication? : Option String
  mainDocuments? : Option (List Doc)
  attachments? : Option (List Doc)
deriving DecidableEq

/-- A response of the STORI `result` endpoint, as consumed by
`download_for_issuer` (only `storiResultItems` influences behaviour;
`resultCount` is only logged). -/
structure SearchResult where
  resultCount? : Option Nat
  storiResultItems? : Option (List Item)
deriving DecidableEq

/-- A raw issuer record of the cache file `issuers.json.txt`
(`normalize_issuer_list` consumes only `companyId` and `abbreviation`). -/
structure RawIssuer where
  companyId : String
  companyNumber? : Option String
  localisedName? : Option String
  abbreviation? : Option String
  lei? : Option String
deriving DecidableEq

/-- A normalized issuer as produced by `normalize_issuer_list`. -/
structure Issuer where
  id : String
  name : String
deriving DecidableEq

/-- `main.normalize_issuer_list`: the loop appending
`{"id": issuer["companyId"], "name": issuer.get("abbreviation") or "UNKNOWN"}`
for each raw record. -/
def normalizeIssuerList : List RawIssuer → List Issuer
  | [] => []
  | r :: rest => ⟨r.companyId, pyOr r.abbreviation? "UNKNOWN"⟩ :: normalizeIssuerList rest

/-- The document filter of `download_for_issuer` (lines 193-207): keep EN/NL
PDF documents that carry a truthy `fileDataId`. -/
def accepts (d : Doc) : Bool :=
  let fileType := pyLower (pyOr d.fileType? "")
  let language := pyLower (pyOr d.language? "")
  let originalName := pyLower (pyOr d.originalFileName? "")
  (language == "en" || language == "nl") &&
  (fileType == "pdf" || ".pdf".data.isSuffixOf originalName.data) &&
  (match d.fileDataId? with
   | none => false
   | some s => !(s == ""))

/-- Model of Python `str(n)` for a natural number: its decimal digit string. -/
def pyNatStr (n : Nat) : String :=
  if n = 0 then "0" else ⟨((Nat.digits 10 n).map Nat.digitChar).reverse⟩

/-- Model of `output_name.rpartition(".")` as used by the collision loop:
the part before the last dot and the part after it (an absent dot yields an
empty stem, matching Python's `("", "", name)`). -/
def rpartitionDot (name : String) : String × String :=
  let r := name.data.reverse
  (⟨((r.dropWhile (fun c => c ≠ '.')).drop 1).reverse⟩,
   ⟨(r.takeWhile (fun c => c ≠ '.')).reverse⟩)

/-- One collision candidate `f"{stem}_v{counter}.{ext}"`. -/
def candName (stem ext : String) (k : Nat) : String :=
  stem ++ "_v" ++ pyNatStr k ++ "." ++ ext

/-- The `while output_path.exists()` loop of `download_for_issuer`: try
versions `k, k+1, ...` until a candidate is not present in the destination
directory `fs`.  The fuel argument is an upper bound on the number of
iterations; `findFree_spec` shows that fuel `fs.length + 1` always reaches a
free candidate. -/
def findFree (fs : List String) (stem ext : String) : Nat → Nat → String
  | 0, k => candName stem ext k
  | fuel + 1, k =>
    if candName stem ext k ∈ fs then findFree fs stem ext fuel (k + 1)
    else candName stem ext k

/-- Collision resolution of `download_for_issuer` (lines 213-218): keep the
computed name unless it already exists in the destination directory, in which
case version suffixes `_v2, _v3, ...` are tried in order. -/
def resolveOutputName (fs : List String) (name : String) : String :=
  if name ∈ fs then
    findFree fs (rpartitionDot name).1 (rpartitionDot name).2 (fs.length + 1) 2
  else name

/-- A concrete accepted document (English PDF with a file id), for witnesses. -/
def docEn : Doc := ⟨some "pdf", some "en", none, some "id1"⟩

/-- A concrete rejected document (German, no file id), for witnesses. -/
def docDe : Doc := ⟨none, some "de", none, none⟩

/-- A concrete filing item with one main document and one attachment. -/
def itemA : Item :=
  ⟨some "Acme Co", some "LEI123", some "2020-01-01T00:00:00Z", some [docEn], some [docDe]⟩

/-- A concrete filing item with null `mainDocuments` and one attachment. -/
def itemB : Item := ⟨none, none, none, none, some [docDe]⟩

/-- Observable effects of a run: search requests issued, documents examined
by the filter, and files downloaded and written. -/
inductive Event where
  | search (companyId : String)
  | consider (doc : Doc)
  | download (fileDataId : String) (path : String)
deriving DecidableEq

/-- Number of downloads performed in a trace. -/
def countDownloads (evs : List Event) : Nat :=
  evs.countP fun e => match e with | .download _ _ => true | _ => false

/-- The documents examined by the filter, in examination order. -/
def considerTrace (evs : List Event) : List Doc :=
  evs.filterMap fun e => match e with | .consider d => some d | _ => none

/-- The inner document loop of `download_for_issuer`: for each document, stop
if the counter reached the cap, otherwise apply the filter; accepted documents
are downloaded and written to the collision-resolved path. The state is the
download counter and the list of file names present in `downloads/`. -/
def processDocs (companyName lei publicationIso : String) (maxDownloads : Nat) :
    List Doc → Nat → List String → Nat × List String × List Event
  | [], count, fs => (count, fs, [])
  | d :: rest, count, fs =>
    if maxDownloads ≤ count then (count, fs, [])
    else if accepts d then
      let path := resolveOutputName fs (buildOutputFilename companyName lei publicationIso)
      let r := processDocs companyName lei publicationIso maxDownloads rest (count + 1) (path :: fs)
      (r.1, r.2.1, .consider d :: .download (pyOr d.fileDataId? "") path :: r.2.2)
    else
      let r := processDocs companyName lei publicationIso maxDownloads rest count fs
      (r.1, r.2.1, .consider d :: r.2.2)

/-- The outer filing-item loop of `download_for_issuer`: extract the naming
fields with their defaults, concatenate `mainDocuments` and `attachments`,
and run the document loop; stop when the counter reached the cap. -/
def processItems (maxDownloads : Nat) :
    List Item → Nat → List String → Nat × List String × List Event
  | [], count, fs => (count, fs, [])
  | it :: rest, count, fs =>
    if maxDownloads ≤ count then (count, fs, [])
    else
      let companyName := pyOr it.companyName? "UNKNOWN_COMPANY"
      let lei := pyOr it.lei? "NO_LEI"
      let publicationIso := pyOr it.datePublication? "UNKNOWN_DATE"
      let docs := it.mainDocuments?.getD [] ++ it.attachments?.getD []
      let r := processDocs companyName lei publicationIso maxDownloads docs count fs
      let r2 := processItems maxDownloads rest r.1 r.2.1
      (r2.1, r2.2.1, r.2.2 ++ r2.2.2)

/-- `main.download_for_issuer`: return immediately when the counter already
reached the cap; otherwise issue the search request, treat a missing or null
`storiResultItems` as an empty sequence, and run the filing-item loop. -/
def downloadForIssuer (resp : SearchResult) (companyId : String)
    (maxDownloads alreadyDownloaded : Nat) (fs : List String) :
    Nat × List String × List Event :=
  if maxDownloads ≤ alreadyDownloaded then (alreadyDownloaded, fs, [])
  else
    let items := resp.storiResultItems?.getD []
    let r := processItems maxDownloads items alreadyDownloaded fs
    (r.1, r.2.1, .search companyId :: r.2.2)

/-- The issuer loop of `main.main`: break once the running total reached the
cap, otherwise process the next issuer with the shared counter.  The search
response for each issuer is given by the oracle `fetch` (the remote API is a
black box). -/
def runLoop (fetch : String → SearchResult) (maxDownloads : Nat) :
    List Issuer → Nat → List String → Nat × List String × List Event
  | [], count, fs => (count, fs, [])
  | issuer :: rest, count, fs =>
    if maxDownloads ≤ count then (count, fs, [])
    else
      let r := downloadForIssuer (fetch issuer.id) issuer.id maxDownloads count fs
      let r2 := runLoop fetch maxDownloads rest r.1 r.2.1
      (r2.1, r2.2.1, r.2.2 ++ r2.2.2)

/-- The whole run of `main.main` for a given issuer list, search oracle, cap,
and initial contents of the `downloads` directory: the counter starts at 0. -/
def runMain (issuers : List Issuer) (fetch : String → SearchResult)
    (maxDownloads : Nat) (fs0 : List String) : Nat × List String × List Event :=
  runLoop fetch maxDownloads issuers 0 fs0

/-! ## Lemmas about sanitization -/

lemma dropWhile_all_false {α : Type} {p : α → Bool} {l : List α}
    (h : ∀ c ∈ l, p c = false) : l.dropWhile p = l := by
  cases l with
  | nil => rfl
  | cons a t => simp [List.dropWhile_cons, h a (by simp)]

lemma mem_of_mem_pyStrip {c : Char} {l : List Char} (h : c ∈ pyStrip l) : c ∈ l := by
  unfold pyStrip at h
  rw [List.mem_reverse] at h
  have h2 := (List.dropWhile_sublist pyIsSpace).subset h
  rw [List.mem_reverse] at h2
  exact (List.dropWhile_sublist pyIsSpace).subset h2

lemma isClassChar_not_space {c : Char} (h : isClassChar c = true) : pyIsSpace c = false := by
  cases hps : pyIsSpace c with
  | false => rfl
  | true =>
    simp only [pyIsSpace, Bool.or_eq_true, beq_iff_eq] at hps
    rcases hps with ((((rfl | rfl) | rfl) | rfl) | rfl) | rfl <;> exact absurd h (by decide)

lemma isClassChar_ne_space {c : Char} (h : isClassChar c = true) : c ≠ ' ' := by
  rintro rfl; exact absurd h (by decide)

lemma pyStrip_noop {l : List Char} (h : ∀ c ∈ l, pyIsSpace c = false) : pyStrip l = l := by
  unfold pyStrip
  rw [dropWhile_all_false h,
    dropWhile_all_false (fun c hc => h c (List.mem_reverse.mp hc)), List.reverse_reverse]

lemma map_space_noop : ∀ {l : List Char}, (∀ c ∈ l, c ≠ ' ') →
    l.map (fun c => if c = ' ' then '_' else c) = l := by
  intro l
  induction l with
  | nil => intro _; rfl
  | cons a t ih =>
    intro h
    rw [List.map_cons, if_neg (h a (by simp)), ih (fun c hc => h c (by simp [hc]))]

/-- The output of the sanitizer is either the fallback token or a non-empty
string of characters from the kept class. -/
lemma sanitize_cases (x : String) :
    sanitizeForFilename x = "UNKNOWN" ∨
      ((sanitizeForFilename x).data ≠ [] ∧
        ∀ c ∈ (sanitizeForFilename x).data, isClassChar c = true) := by
  unfold sanitizeForFilename
  by_cases h0 : x = ""
  · rw [if_pos h0]; exact Or.inl rfl
  · rw [if_neg h0]
    by_cases h1 : sanitizeCore x = []
    · rw [if_pos h1]; exact Or.inl rfl
    · rw [if_neg h1]
      refine Or.inr ⟨h1, ?_⟩
      intro c hc
      exact (List.mem_filter.mp hc).2

/-- Sanitizing a non-empty string all of whose characters are in the kept
class returns the string unchanged. -/
lemma sanitize_of_class {s : String} (hne : s.data ≠ [])
    (hcl : ∀ c ∈ s.data, isClassChar c = true) : sanitizeForFilename s = s := by
  have hs : s ≠ "" := fun h => hne (congrArg String.data h)
  have hcore : sanitizeCore s = s.data := by
    unfold sanitizeCore
    rw [pyStrip_noop (fun c hc => isClassChar_not_space (hcl c hc)),
      map_space_noop (fun c hc => isClassChar_ne_space (hcl c hc)),
      List.filter_eq_self.mpr hcl]
  unfold sanitizeForFilename
  rw [if_neg hs, hcore, if_neg hne]

/-! ## Claim theorems: filenames and sanitization -/

/-- C3: the code disagrees with the claim.  When the publication timestamp is
absent, `download_for_issuer` substitutes the sentinel `"UNKNOWN_DATE"` before
calling `build_output_filename`, which then splits that sentinel at the `T` of
`DATE`: the date part of the produced filename is `"UNKNOWN_DA"`, not the
claimed `"UNKNOWN_DATE"` (the `else "UNKNOWN_DATE"` branch inside
`build_output_filename` is unreachable from this call site). -/
theorem c3_missing_timestamp_date_part :
    pyOr (none : Option String) "UNKNOWN_DATE" = "UNKNOWN_DATE" ∧
    datePart "UNKNOWN_DATE" = "UNKNOWN_DA" ∧
    buildOutputFilename "ACME" "LEI1" (pyOr (none : Option String) "UNKNOWN_DATE") =
      "ACME_LEI1_AnnualReport_UNKNOWN_DA.pdf" := by
  decide

/-- C4: `build_output_filename` is a deterministic function returning the
fixed format `{COMPANY}_{LEI}_AnnualReport_{DATE}.pdf`, the company part
sanitized then upper-cased and the LEI part sanitized but not upper-cased;
the Acacia Pharma Group example maps to the expected string. -/
theorem c4_build_output_filename_format :
    (∀ c l p : String, buildOutputFilename c l p =
      pyUpper (sanitizeForFilename c) ++ "_" ++ sanitizeForFilename l ++
        "_AnnualReport_" ++ datePart p ++ ".pdf") ∧
    buildOutputFilename "Acacia Pharma Group" "213800SLDKXWKT6E3381" "2022-04-29T10:00:00Z" =
      "ACACIA_PHARMA_GROUP_213800SLDKXWKT6E3381_AnnualReport_2022-04-29.pdf" :=
  ⟨fun _ _ _ => rfl, by decide⟩

/-- C6 counterexample: `"@ @"` consists entirely of characters outside
`[A-Za-z0-9_-]`, yet it sanitizes to `"_"` rather than `"UNKNOWN"`: the
space-to-underscore replacement runs before the character filter, so interior
spaces of an all-invalid string survive as underscores. -/
theorem c6_counterexample :
    (∀ c ∈ "@ @".data, isClassChar c = false) ∧
    sanitizeForFilename "@ @" = "_" ∧ ("_" : String) ≠ "UNKNOWN" := by
  decide

/-- C6 (amended): the sanitizer is idempotent, and sanitizing the empty
string, or a string all of whose characters are outside `[A-Za-z0-9_-]` and
none of which is a space, yields `"UNKNOWN"`. -/
theorem c6_sanitize_idempotent :
    (∀ x : String, sanitizeForFilename (sanitizeForFilename x) = sanitizeForFilename x) ∧
    (∀ x : String, (∀ c ∈ x.data, isClassChar c = false ∧ c ≠ ' ') →
      sanitizeForFilename x = "UNKNOWN") := by
  constructor
  · intro x
    rcases sanitize_cases x with h | ⟨hne, hcl⟩
    · rw [h]; decide
    · exact sanitize_of_class hne hcl
  · intro x hx
    by_cases hx0 : x = ""
    · rw [hx0]; decide
    · have hcore : sanitizeCore x = [] := by
        unfold sanitizeCore
        rw [List.filter_eq_nil_iff]
        intro a ha
        obtain ⟨c, hc, rfl⟩ := List.mem_map.mp ha
        obtain ⟨hcl, hcsp⟩ := hx c (mem_of_mem_pyStrip hc)
        rw [if_neg hcsp]
        simp [hcl]
      unfold sanitizeForFilename
      rw [if_neg hx0, hcore, if_pos rfl]

/-- Witness for C6: a concrete idempotence instance and a concrete
all-invalid, space-free string mapped to `"UNKNOWN"`. -/
theorem c6_sanitize_idempotent_witness :
    sanitizeForFilename (sanitizeForFilename "a b(c)") = sanitizeForFilename "a b(c)" ∧
    sanitizeForFilename "@@!" = "UNKNOWN" :=
  ⟨c6_sanitize_idempotent.1 "a b(c)", c6_sanitize_idempotent.2 "@@!" (by decide)⟩

/-! ## Claim theorems: filtering, normalization, empty responses -/

/-- C2: a document is accepted exactly when its language is `en` or `nl`
case-insensitively, its file type is `pdf` case-insensitively or its original
file name ends with `.pdf` case-insensitively, and its `fileDataId` is present
and non-empty; a rejected document is skipped (only observed by the filter)
and never an error. -/
theorem c2_filter_acceptance :
    ∀ d : Doc,
      (accepts d = true ↔
        (pyLower (pyOr d.language? "") = "en" ∨ pyLower (pyOr d.language? "") = "nl") ∧
        (pyLower (pyOr d.fileType? "") = "pdf" ∨
          ∃ pre, (pyLower (pyOr d.originalFileName? "")).data = pre ++ ".pdf".data) ∧
        (∃ s, d.fileDataId? = some s ∧ s ≠ "")) ∧
      (∀ companyName lei publicationIso maxDownloads rest count fs,
        accepts d = false → count < maxDownloads →
        processDocs companyName lei publicationIso maxDownloads (d :: rest) count fs =
          ((processDocs companyName lei publicationIso maxDownloads rest count fs).1,
           (processDocs companyName lei publicationIso maxDownloads rest count fs).2.1,
           .consider d ::
             (processDocs companyName lei publicationIso maxDownloads rest count fs).2.2)) := by
  intro d
  constructor
  · cases hfd : d.fileDataId? with
    | none => simp [accepts, hfd]
    | some s =>
      simp only [accepts, hfd, Bool.and_eq_true, Bool.or_eq_true, beq_iff_eq,
        List.isSuffixOf_iff_suffix, Bool.not_eq_true', beq_eq_false_iff_ne, ne_eq,
        Option.some.injEq]
      constructor
      · rintro ⟨⟨hl, ht⟩, hid⟩
        refine ⟨hl, ?_, s, rfl, hid⟩
        rcases ht with ht | ⟨pre, hpre⟩
        · exact Or.inl ht
        · exact Or.inr ⟨pre, hpre.symm⟩
      · rintro ⟨hl, ht, t, rfl, htne⟩
        refine ⟨⟨hl, ?_⟩, htne⟩
        rcases ht with ht | ⟨pre, hpre⟩
        · exact Or.inl ht
        · exact Or.inr ⟨pre, hpre.symm⟩
  · intro companyName lei publicationIso maxDownloads rest count fs hrej hlt
    simp [processDocs, Nat.not_le.mpr hlt, hrej]

/-- Witness for C2: the spec's rejected example `{language: "FR",
fileType: "pdf", fileDataId: "x"}` is skipped without effect on the state. -/
theorem c2_filter_acceptance_witness :
    processDocs "C" "L" "2022-01-01" 5 [⟨some "pdf", some "FR", none, some "x"⟩] 0 [] =
      ((processDocs "C" "L" "2022-01-01" 5 [] 0 []).1,
       (processDocs "C" "L" "2022-01-01" 5 [] 0 []).2.1,
       .consider ⟨some "pdf", some "FR", none, some "x"⟩ ::
         (processDocs "C" "L" "2022-01-01" 5 [] 0 []).2.2) :=
  (c2_filter_acceptance ⟨some "pdf", some "FR", none, some "x"⟩).2
    "C" "L" "2022-01-01" 5 [] 0 [] (by decide) (by decide)

/-- C7: a search response whose `storiResultItems` is absent or null yields
zero downloads for that issuer, leaves the destination directory untouched,
and returns the counter unchanged. -/
theorem c7_empty_result_items :
    ∀ (resp : SearchResult) (companyId : String)
      (maxDownloads alreadyDownloaded : Nat) (fs : List String),
      resp.storiResultItems? = none →
      (downloadForIssuer resp companyId maxDownloads alreadyDownloaded fs).1 =
        alreadyDownloaded ∧
      (downloadForIssuer resp companyId maxDownloads alreadyDownloaded fs).2.1 = fs ∧
      countDownloads
        (downloadForIssuer resp companyId maxDownloads alreadyDownloaded fs).2.2 = 0 := by
  intro resp companyId maxDownloads alreadyDownloaded fs hitems
  by_cases h : maxDownloads ≤ alreadyDownloaded
  · simp [downloadForIssuer, h, countDownloads]
  · simp [downloadForIssuer, h, hitems, processItems, countDownloads]

/-- Witness for C7: a concrete response with null `storiResultItems`. -/
theorem c7_empty_result_items_witness :
    (downloadForIssuer ⟨some 3, none⟩ "cid" 5 1 ["a.pdf"]).1 = 1 ∧
    (downloadForIssuer ⟨some 3, none⟩ "cid" 5 1 ["a.pdf"]).2.1 = ["a.pdf"] ∧
    countDownloads (downloadForIssuer ⟨some 3, none⟩ "cid" 5 1 ["a.pdf"]).2.2 = 0 :=
  c7_empty_result_items ⟨some 3, none⟩ "cid" 5 1 ["a.pdf"] rfl

/-- C8: normalization of a parsed issuer list preserves its length and order
and maps each raw record to `{id = companyId, name = abbreviation if present
and non-empty else "UNKNOWN"}`. -/
theorem c8_normalize_issuer_list :
    ∀ raw : List RawIssuer,
      (normalizeIssuerList raw).length = raw.length ∧
      ∀ i : Nat, (normalizeIssuerList raw)[i]? =
        (raw[i]?).map fun r =>
          ⟨r.companyId,
            match r.abbreviation? with
            | some a => if a = "" then "UNKNOWN" else a
            | none => "UNKNOWN"⟩ := by
  intro raw
  induction raw with
  | nil => exact ⟨rfl, fun i => by cases i <;> rfl⟩
  | cons r rest ih =>
    refine ⟨by simp [normalizeIssuerList, ih.1], fun i => ?_⟩
    cases i with
    | zero =>
      simp only [normalizeIssuerList, List.getElem?_cons_zero, Option.map_some']
      cases r.abbreviation? <;> simp [pyOr]
    | succ n => simpa [normalizeIssuerList] using ih.2 n

/-! ## Lemmas about the download counter -/

lemma processDocs_le (companyName lei publicationIso : String) (maxDownloads : Nat) :
    ∀ docs count fs, count ≤ maxDownloads →
      (processDocs companyName lei publicationIso maxDownloads docs count fs).1 ≤
        maxDownloads := by
  intro docs
  induction docs with
  | nil => intro count fs h; exact h
  | cons d rest ih =>
    intro count fs h
    by_cases hle : maxDownloads ≤ count
    · simpa [processDocs, hle] using h
    · by_cases ha : accepts d = true
      · simp only [processDocs, if_neg hle, if_pos ha]
        exact ih _ _ (Nat.succ_le_of_lt (Nat.lt_of_not_le hle))
      · simp only [processDocs, if_neg hle, if_neg ha]
        exact ih _ _ h

lemma processDocs_count (companyName lei publicationIso : String) (maxDownloads : Nat) :
    ∀ docs count fs,
      (processDocs companyName lei publicationIso maxDownloads docs count fs).1 =
        count + countDownloads
          (processDocs companyName lei publicationIso maxDownloads docs count fs).2.2 := by
  intro docs
  induction docs with
  | nil => intro count fs; simp [processDocs, countDownloads]
  | cons d rest ih =>
    intro count fs
    by_cases hle : maxDownloads ≤ count
    · simp [processDocs, hle, countDownloads]
    · by_cases ha : accepts d = true
      · simp only [processDocs, if_neg hle, if_pos ha]
        have := ih (count + 1)
          (resolveOutputName fs (buildOutputFilename companyName lei publicationIso) :: fs)
        simp [countDownloads, List.countP_cons] at *
        omega
      · simp only [processDocs, if_neg hle, if_neg ha]
        have := ih count fs
        simp [countDownloads, List.countP_cons] at *
        omega

lemma processItems_le (maxDownloads : Nat) :
    ∀ items count fs, count ≤ maxDownloads →
      (processItems maxDownloads items count fs).1 ≤ maxDownloads := by
  intro items
  induction items with
  | nil => intro count fs h; exact h
  | cons it rest ih =>
    intro count fs h
    by_cases hle : maxDownloads ≤ count
    · simpa [processItems, hle] using h
    · simp only [processItems, if_neg hle]
      exact ih _ _ (processDocs_le _ _ _ _ _ _ _ h)

lemma processItems_count (maxDownloads : Nat) :
    ∀ items count fs,
      (processItems maxDownloads items count fs).1 =
        count + countDownloads (processItems maxDownloads items count fs).2.2 := by
  intro items
  induction items with
  | nil => intro count fs; simp [processItems, countDownloads]
  | cons it rest ih =>
    intro count fs
    by_cases hle : maxDownloads ≤ count
    · simp [processItems, hle, countDownloads]
    · simp only [processItems, if_neg hle]
      have h1 := processDocs_count (pyOr it.companyName? "UNKNOWN_COMPANY")
        (pyOr it.lei? "NO_LEI") (pyOr it.datePublication? "UNKNOWN_DATE") maxDownloads
        (it.mainDocuments?.getD [] ++ it.attachments?.getD []) count fs
      have h2 := ih (processDocs (pyOr it.companyName? "UNKNOWN_COMPANY")
        (pyOr it.lei? "NO_LEI") (pyOr it.datePublication? "UNKNOWN_DATE") maxDownloads
        (it.mainDocuments?.getD [] ++ it.attachments?.getD []) count fs).1
        (processDocs (pyOr it.companyName? "UNKNOWN_COMPANY")
        (pyOr it.lei? "NO_LEI") (pyOr it.datePublication? "UNKNOWN_DATE") maxDownloads
        (it.mainDocuments?.getD [] ++ it.attachments?.getD []) count fs).2.1
      simp only [countDownloads, List.countP_append] at *
      omega

lemma downloadForIssuer_le (resp : SearchResult) (companyId : String)
    (maxDownloads count : Nat) (fs : List String) (h : count ≤ maxDownloads) :
    (downloadForIssuer resp companyId maxDownloads count fs).1 ≤ maxDownloads := by
  by_cases hle : maxDownloads ≤ count
  · simpa [downloadForIssuer, hle] using h
  · simp only [downloadForIssuer, if_neg hle]
    exact processItems_le _ _ _ _ h

lemma downloadForIssuer_count (resp : SearchResult) (companyId : String)
    (maxDownloads count : Nat) (fs : List String) :
    (downloadForIssuer resp companyId maxDownloads count fs).1 =
      count + countDownloads (downloadForIssuer resp companyId maxDownloads count fs).2.2 := by
  by_cases hle : maxDownloads ≤ count
  · simp [downloadForIssuer, hle, countDownloads]
  · simp only [downloadForIssuer, if_neg hle]
    have := processItems_count maxDownloads (resp.storiResultItems?.getD []) count fs
    simp [countDownloads, List.countP_cons] at *
    omega

lemma runLoop_le (fetch : String → SearchResult) (maxDownloads : Nat) :
    ∀ issuers count fs, count ≤ maxDownloads →
      (runLoop fetch maxDownloads issuers count fs).1 ≤ maxDownloads := by
  intro issuers
  induction issuers with
  | nil => intro count fs h; exact h
  | cons issuer rest ih =>
    intro count fs h
    by_cases hle : maxDownloads ≤ count
    · simpa [runLoop, hle] using h
    · simp only [runLoop, if_neg hle]
      exact ih _ _ (downloadForIssuer_le _ _ _ _ _ h)

lemma runLoop_count (fetch : String → SearchResult) (maxDownloads : Nat) :
    ∀ issuers count fs,
      (runLoop fetch maxDownloads issuers count fs).1 =
        count + countDownloads (runLoop fetch maxDownloads issuers count fs).2.2 := by
  intro issuers
  induction issuers with
  | nil => intro count fs; simp [runLoop, countDownloads]
  | cons issuer rest ih =>
    intro count fs
    by_cases hle : maxDownloads ≤ count
    · simp [runLoop, hle, countDownloads]
    · simp only [runLoop, if_neg hle]
      have h1 := downloadForIssuer_count (fetch issuer.id) issuer.id maxDownloads count fs
      have h2 := ih (downloadForIssuer (fetch issuer.id) issuer.id maxDownloads count fs).1
        (downloadForIssuer (fetch issuer.id) issuer.id maxDownloads count fs).2.1
      simp only [countDownloads, List.countP_append] at *
      omega

/-! ## Claim theorem: cap enforcement -/

/-- C1: across any whole run the number of downloads performed never exceeds
the cap, and once the running counter has reached the cap no further search
request is issued: `download_for_issuer` returns immediately with an empty
event trace, and the issuer loop of `main` breaks, contributing no further
events for any subsequent issuer. -/
theorem c1_cap_enforcement :
    (∀ issuers fetch maxDownloads fs0,
      countDownloads (runMain issuers fetch maxDownloads fs0).2.2 ≤ maxDownloads) ∧
    (∀ resp companyId maxDownloads count fs, maxDownloads ≤ count →
      downloadForIssuer resp companyId maxDownloads count fs = (count, fs, [])) ∧
    (∀ fetch maxDownloads issuers count fs, maxDownloads ≤ count →
      runLoop fetch maxDownloads issuers count fs = (count, fs, [])) := by
  refine ⟨?_, ?_, ?_⟩
  · intro issuers fetch maxDownloads fs0
    have h1 := runLoop_count fetch maxDownloads issuers 0 fs0
    have h2 := runLoop_le fetch maxDownloads issuers 0 fs0 (Nat.zero_le _)
    unfold runMain
    omega
  · intro resp companyId maxDownloads count fs h
    simp [downloadForIssuer, h]
  · intro fetch maxDownloads issuers count fs h
    cases issuers with
    | nil => rfl
    | cons issuer rest => simp [runLoop, h]

/-- Witness for C1: with the counter already at the cap, a concrete issuer
call and a concrete issuer loop both return immediately without events. -/
theorem c1_cap_enforcement_witness :
    downloadForIssuer ⟨some 1, some []⟩ "cid" 2 2 [] = (2, [], []) ∧
    runLoop (fun _ => ⟨some 1, some []⟩) 2 [⟨"i", "n"⟩] 2 [] = (2, [], []) :=
  ⟨c1_cap_enforcement.2.1 ⟨some 1, some []⟩ "cid" 2 2 [] (Nat.le_refl 2),
   c1_cap_enforcement.2.2 (fun _ => ⟨some 1, some []⟩) 2 [⟨"i", "n"⟩] 2 [] (Nat.le_refl 2)⟩

/-! ## Lemmas about the examination order of documents -/

lemma considerTrace_append (evs evs' : List Event) :
    considerTrace (evs ++ evs') = considerTrace evs ++ considerTrace evs' := by
  simp [considerTrace, List.filterMap_append]

/-- When the cap is not reached, the document loop examines every document in
list order and performs exactly one download per accepted document. -/
lemma processDocs_consider (companyName lei publicationIso : String) (maxDownloads : Nat) :
    ∀ docs count fs, count + (docs.filter accepts).length < maxDownloads →
      considerTrace
        (processDocs companyName lei publicationIso maxDownloads docs count fs).2.2 = docs ∧
      (processDocs companyName lei publicationIso maxDownloads docs count fs).1 =
        count + (docs.filter accepts).length := by
  intro docs
  induction docs with
  | nil => intro count fs _; simp [processDocs, considerTrace]
  | cons d rest ih =>
    intro count fs h
    have hlt : count < maxDownloads := by
      have := Nat.le_add_right count ((d :: rest).filter accepts).length
      omega
    by_cases ha : accepts d = true
    · have hflt : ((d :: rest).filter accepts).length = (rest.filter accepts).length + 1 := by
        simp [List.filter_cons, ha]
      have ihr := ih (count + 1)
        (resolveOutputName fs (buildOutputFilename companyName lei publicationIso) :: fs)
        (by omega)
      simp only [processDocs, if_neg (Nat.not_le.mpr hlt), if_pos ha]
      refine ⟨?_, by omega⟩
      simpa [considerTrace, List.filterMap_cons] using ihr.1
    · have hflt : ((d :: rest).filter accepts).length = (rest.filter accepts).length := by
        simp [List.filter_cons, ha]
      have ihr := ih count fs (by omega)
      simp only [processDocs, if_neg (Nat.not_le.mpr hlt), if_neg ha]
      refine ⟨?_, by omega⟩
      simpa [considerTrace, List.filterMap_cons] using ihr.1

/-- When the cap is not reached, the item loop examines, for each filing item
in response order, exactly the concatenation of its `mainDocuments` and its
`attachments`, in that order. -/
lemma processItems_consider (maxDownloads : Nat) :
    ∀ items count fs,
      count + ((items.flatMap fun it =>
        it.mainDocuments?.getD [] ++ it.attachments?.getD []).filter accepts).length <
          maxDownloads →
      considerTrace (processItems maxDownloads items count fs).2.2 =
        (items.flatMap fun it => it.mainDocuments?.getD [] ++ it.attachments?.getD []) ∧
      (processItems maxDownloads items count fs).1 =
        count + ((items.flatMap fun it =>
          it.mainDocuments?.getD [] ++ it.attachments?.getD []).filter accepts).length := by
  intro items
  induction items with
  | nil => intro count fs _; simp [processItems, considerTrace]
  | cons it rest ih =>
    intro count fs h
    have hsplit : ((it :: rest).flatMap fun i =>
        i.mainDocuments?.getD [] ++ i.attachments?.getD []).filter accepts =
        ((it.mainDocuments?.getD [] ++ it.attachments?.getD []).filter accepts) ++
        ((rest.flatMap fun i =>
          i.mainDocuments?.getD [] ++ i.attachments?.getD []).filter accepts) := by
      simp [List.flatMap_cons, List.filter_append]
    have hlt : count < maxDownloads := by
      have := Nat.le_add_right count (((it :: rest).flatMap fun i =>
        i.mainDocuments?.getD [] ++ i.attachments?.getD []).filter accepts).length
      omega
    have hlen : (((it :: rest).flatMap fun i =>
        i.mainDocuments?.getD [] ++ i.attachments?.getD []).filter accepts).length =
        ((it.mainDocuments?.getD [] ++ it.attachments?.getD []).filter accepts).length +
        ((rest.flatMap fun i =>
          i.mainDocuments?.getD [] ++ i.attachments?.getD []).filter accepts).length := by
      rw [hsplit, List.length_append]
    have hdocs := processDocs_consider (pyOr it.companyName? "UNKNOWN_COMPANY")
      (pyOr it.lei? "NO_LEI") (pyOr it.datePublication? "UNKNOWN_DATE") maxDownloads
      (it.mainDocuments?.getD [] ++ it.attachments?.getD []) count fs (by omega)
    have ihr := ih (processDocs (pyOr it.companyName? "UNKNOWN_COMPANY")
      (pyOr it.lei? "NO_LEI") (pyOr it.datePublication? "UNKNOWN_DATE") maxDownloads
      (it.mainDocuments?.getD [] ++ it.attachments?.getD []) count fs).1
      (processDocs (pyOr it.companyName? "UNKNOWN_COMPANY")
      (pyOr it.lei? "NO_LEI") (pyOr it.datePublication? "UNKNOWN_DATE") maxDownloads
      (it.mainDocuments?.getD [] ++ it.attachments?.getD []) count fs).2.1
      (by rw [hdocs.2]; omega)
    simp only [processItems, if_neg (Nat.not_le.mpr hlt)]
    constructor
    · rw [considerTrace_append, hdocs.1, ihr.1, List.flatMap_cons]
    · rw [ihr.2, hdocs.2, hlen]
      omega

/-! ## Claim theorem: document iteration order -/

/-- C9: as long as the cap does not intervene, the filing items of a search
response are iterated in response order, and within each item exactly the
concatenation of its `mainDocuments` followed by its `attachments` is
examined, a missing or null sequence contributing nothing. -/
theorem c9_document_iteration_order :
    ∀ (maxDownloads : Nat) (items : List Item) (count : Nat) (fs : List String),
      count + ((items.flatMap fun it =>
        it.mainDocuments?.getD [] ++ it.attachments?.getD []).filter accepts).length <
          maxDownloads →
      considerTrace (processItems maxDownloads items count fs).2.2 =
        items.flatMap fun it => it.mainDocuments?.getD [] ++ it.attachments?.getD [] :=
  fun maxDownloads items count fs h =>
    (processItems_consider maxDownloads items count fs h).1

/-- Witness for C9: a concrete response whose first item has one main
document and one attachment and whose second item has null `mainDocuments`. -/
theorem c9_document_iteration_order_witness :
    considerTrace (processItems 5 [itemA, itemB] 0 []).2.2 =
      [itemA, itemB].flatMap fun it => it.mainDocuments?.getD [] ++ it.attachments?.getD [] :=
  c9_document_iteration_order 5 [itemA, itemB] 0 [] (by decide)

/-! ## Lemmas about collision resolution -/

lemma digitChar_inj : ∀ a, a < 10 → ∀ b, b < 10 →
    Nat.digitChar a = Nat.digitChar b → a = b := by decide

lemma map_digitChar_inj : ∀ l1 l2 : List Nat, (∀ x ∈ l1, x < 10) → (∀ x ∈ l2, x < 10) →
    l1.map Nat.digitChar = l2.map Nat.digitChar → l1 = l2 := by
  intro l1
  induction l1 with
  | nil =>
    intro l2 _ _ h
    cases l2 with
    | nil => rfl
    | cons b t2 => simp at h
  | cons a t ih =>
    intro l2 h1 h2 h
    cases l2 with
    | nil => simp at h
    | cons b t2 =>
      simp only [List.map_cons, List.cons.injEq] at h
      have hab := digitChar_inj a (h1 a (by simp)) b (h2 b (by simp)) h.1
      rw [hab, ih t2 (fun x hx => h1 x (by simp [hx])) (fun x hx => h2 x (by simp [hx])) h.2]

lemma digits_map_eq_zero {n : Nat}
    (h : ((Nat.digits 10 n).map Nat.digitChar).reverse = ['0']) : n = 0 := by
  have h2 : (Nat.digits 10 n).map Nat.digitChar = ['0'] := by
    have := congrArg List.reverse h
    simpa using this
  have h3 : Nat.digits 10 n = [0] :=
    map_digitChar_inj _ [0] (fun x hx => Nat.digits_lt_base (by norm_num) hx) (by decide) h2
  have h4 := Nat.ofDigits_digits 10 n
  rw [h3] at h4
  simpa [Nat.ofDigits] using h4.symm

/-- Distinct naturals have distinct decimal strings. -/
lemma pyNatStr_inj : ∀ m n : Nat, pyNatStr m = pyNatStr n → m = n := by
  intro m n h
  unfold pyNatStr at h
  by_cases hm : m = 0 <;> by_cases hn : n = 0
  · rw [hm, hn]
  · rw [if_pos hm, if_neg hn] at h
    have hd : (['0'] : List Char) = ((Nat.digits 10 n).map Nat.digitChar).reverse :=
      congrArg String.data h
    exact absurd (digits_map_eq_zero hd.symm) hn
  · rw [if_neg hm, if_pos hn] at h
    have hd : (['0'] : List Char) = ((Nat.digits 10 m).map Nat.digitChar).reverse :=
      congrArg String.data h.symm
    exact absurd (digits_map_eq_zero hd.symm) hm
  · rw [if_neg hm, if_neg hn] at h
    have hd : ((Nat.digits 10 m).map Nat.digitChar).reverse =
        ((Nat.digits 10 n).map Nat.digitChar).reverse := congrArg String.data h
    have hdig := map_digitChar_inj _ _
      (fun x hx => Nat.digits_lt_base (by norm_num) hx)
      (fun x hx => Nat.digits_lt_base (by norm_num) hx)
      (List.reverse_inj.mp hd)
    have h2 := congrArg (Nat.ofDigits 10) hdig
    rwa [Nat.ofDigits_digits, Nat.ofDigits_digits] at h2

/-- For a fixed stem and extension, distinct version numbers give distinct
candidate names. -/
lemma candName_inj (stem ext : String) {k j : Nat}
    (h : candName stem ext k = candName stem ext j) : k = j := by
  unfold candName at h
  have hd := congrArg String.data h
  simp only [String.data_append] at hd
  exact pyNatStr_inj _ _
    (String.ext (List.append_cancel_left (List.append_cancel_right
      (List.append_cancel_right hd))))

/-- Pigeonhole: among any `fs.length + 1` consecutive candidates at least one
is not present in the directory listing `fs`. -/
lemma exists_free (fs : List String) (stem ext : String) (k : Nat) :
    ∃ j, k ≤ j ∧ j < k + (fs.length + 1) ∧ candName stem ext j ∉ fs := by
  by_contra hc
  push_neg at hc
  have hinj : Function.Injective (fun i : Nat => candName stem ext (k + i)) := by
    intro a b hab
    have := candName_inj stem ext hab
    omega
  have hsub : (Finset.range (fs.length + 1)).image
      (fun i => candName stem ext (k + i)) ⊆ fs.toFinset := by
    intro x hx
    obtain ⟨i, hi, rfl⟩ := Finset.mem_image.mp hx
    rw [Finset.mem_range] at hi
    exact List.mem_toFinset.mpr (hc (k + i) (by omega) (by omega))
  have hcard := Finset.card_le_card hsub
  rw [Finset.card_image_of_injective _ hinj, Finset.card_range] at hcard
  have := fs.toFinset_card_le
  omega

/-- The collision loop returns the first free candidate at or above the
starting version, provided some free candidate lies within the fuel window. -/
lemma findFree_spec (fs : List String) (stem ext : String) :
    ∀ fuel k, (∃ j, k ≤ j ∧ j < k + fuel ∧ candName stem ext j ∉ fs) →
      ∃ m, k ≤ m ∧ findFree fs stem ext fuel k = candName stem ext m ∧
        candName stem ext m ∉ fs ∧ ∀ j, k ≤ j → j < m → candName stem ext j ∈ fs := by
  intro fuel
  induction fuel with
  | zero =>
    rintro k ⟨j, h1, h2, -⟩
    omega
  | succ fuel ih =>
    rintro k ⟨j, hj1, hj2, hj3⟩
    by_cases hk : candName stem ext k ∈ fs
    · have hex : ∃ j, k + 1 ≤ j ∧ j < (k + 1) + fuel ∧ candName stem ext j ∉ fs := by
        refine ⟨j, ?_, by omega, hj3⟩
        rcases Nat.eq_or_lt_of_le hj1 with rfl | h
        · exact absurd hk hj3
        · omega
      obtain ⟨m, hm1, hm2, hm3, hm4⟩ := ih (k + 1) hex
      refine ⟨m, by omega, ?_, hm3, ?_⟩
      · simp only [findFree, if_pos hk]
        exact hm2
      · intro i hi1 hi2
        rcases Nat.eq_or_lt_of_le hi1 with rfl | h
        · exact hk
        · exact hm4 i h hi2
    · exact ⟨k, Nat.le_refl k, by simp [findFree, hk], hk,
        fun j h1 h2 => absurd (Nat.lt_of_le_of_lt h1 h2) (Nat.lt_irrefl _)⟩

/-! ## Claim theorem: collision resolution -/

/-- C5: when the computed base name already exists in the destination
directory, the resolved output path is never the base name: the loop tries
`{stem}_v2.{ext}, {stem}_v3.{ext}, ...` with strictly increasing versions
starting at 2, re-checking existence for each candidate, and returns the
first candidate not present. -/
theorem c5_collision_resolution :
    ∀ (fs : List String) (name : String), name ∈ fs →
      resolveOutputName fs name ≠ name ∧
      ∃ k, 2 ≤ k ∧
        resolveOutputName fs name =
          candName (rpartitionDot name).1 (rpartitionDot name).2 k ∧
        candName (rpartitionDot name).1 (rpartitionDot name).2 k ∉ fs ∧
        ∀ j, 2 ≤ j → j < k →
          candName (rpartitionDot name).1 (rpartitionDot name).2 j ∈ fs := by
  intro fs name hmem
  have hres : resolveOutputName fs name =
      findFree fs (rpartitionDot name).1 (rpartitionDot name).2 (fs.length + 1) 2 := by
    simp [resolveOutputName, hmem]
  obtain ⟨m, hm1, hm2, hm3, hm4⟩ := findFree_spec fs (rpartitionDot name).1
    (rpartitionDot name).2 (fs.length + 1) 2 (exists_free fs _ _ 2)
  refine ⟨?_, m, hm1, hres.trans hm2, hm3, hm4⟩
  intro heq
  have hcm : candName (rpartitionDot name).1 (rpartitionDot name).2 m = name :=
    (hres.trans hm2).symm.trans heq
  exact hm3 (by rw [hcm]; exact hmem)

/-- Witness for C5: a directory already containing the base name resolves to
a different path. -/
theorem c5_collision_resolution_witness :
    resolveOutputName ["x.pdf"] "x.pdf" ≠ "x.pdf" :=
  (c5_collision_resolution ["x.pdf"] "x.pdf" (by decide)).1

/-! ## Lemmas about filename characters -/

lemma sanitize_ne_empty (x : String) : sanitizeForFilename x ≠ "" := by
  rcases sanitize_cases x with h | ⟨hne, -⟩
  · rw [h]; decide
  · exact fun h0 => hne (congrArg String.data h0)

lemma sanitize_chars (x : String) :
    ∀ c ∈ (sanitizeForFilename x).data, isClassChar c = true := by
  rcases sanitize_cases x with h | ⟨-, hcl⟩
  · rw [h]; decide
  · exact hcl

lemma isClassChar_pyUpperChar {c : Char} (h : isClassChar c = true) :
    isClassChar (pyUpperChar c) = true := by
  unfold pyUpperChar
  cases hf : asciiCasePairs.find? (fun p => p.2 == c) with
  | none => simpa using h
  | some p =>
    have hp := List.mem_of_find?_eq_some hf
    have hall : ∀ q ∈ asciiCasePairs, isClassChar q.1 = true := by decide
    simpa using hall p hp

lemma isFnameChar_of_class {c : Char} (h : isClassChar c = true) :
    isFnameChar c = true := by
  simp [isFnameChar, h]

/-! ## Claim theorems: filename character invariant -/

/-- C10 counterexample: the date part of the filename is not sanitized, so a
publication string containing a path separator puts that separator into the
produced filename, refuting the universally quantified character-set claim. -/
theorem c10_counterexample :
    buildOutputFilename "Acme" "L1" "2022/04/29" =
      "ACME_L1_AnnualReport_2022/04/29.pdf" ∧
    '/' ∈ (buildOutputFilename "Acme" "L1" "2022/04/29").data ∧
    isFnameChar '/' = false := by
  decide

/-- C10 (amended): for every input the sanitizer returns a non-empty string
over `[A-Za-z0-9_-]`; and whenever the date part of the publication string
consists of characters in `[A-Za-z0-9_.-]` (as every well-formed ISO
timestamp does), `build_output_filename` returns a non-empty name that ends
with `.pdf` and contains only characters in `[A-Za-z0-9_.-]`. -/
theorem c10_sanitizer_filename_invariant :
    (∀ x : String, sanitizeForFilename x ≠ "" ∧
      ∀ c ∈ (sanitizeForFilename x).data, isClassChar c = true) ∧
    (∀ companyName lei publicationIso : String,
      (∀ c ∈ (datePart publicationIso).data, isFnameChar c = true) →
      buildOutputFilename companyName lei publicationIso ≠ "" ∧
      (∃ pre, (buildOutputFilename companyName lei publicationIso).data =
        pre ++ ".pdf".data) ∧
      ∀ c ∈ (buildOutputFilename companyName lei publicationIso).data,
        isFnameChar c = true) := by
  constructor
  · exact fun x => ⟨sanitize_ne_empty x, sanitize_chars x⟩
  · intro companyName lei publicationIso hdp
    have hdata : (buildOutputFilename companyName lei publicationIso).data =
        (pyUpper (sanitizeForFilename companyName)).data ++ "_".data ++
        (sanitizeForFilename lei).data ++ "_AnnualReport_".data ++
        (datePart publicationIso).data ++ ".pdf".data := by
      simp only [buildOutputFilename, String.data_append]
    refine ⟨?_, ⟨_, hdata⟩, ?_⟩
    · intro h0
      have := congrArg String.data h0
      rw [hdata] at this
      simp at this
    · intro c hc
      rw [hdata] at hc
      simp only [List.mem_append] at hc
      rcases hc with ((((hc | hc) | hc) | hc) | hc) | hc
      · obtain ⟨c0, hc0, rfl⟩ := List.mem_map.mp hc
        exact isFnameChar_of_class (isClassChar_pyUpperChar (sanitize_chars _ c0 hc0))
      · exact (by decide : ∀ x ∈ "_".data, isFnameChar x = true) c hc
      · exact isFnameChar_of_class (sanitize_chars _ c hc)
      · exact (by decide : ∀ x ∈ "_AnnualReport_".data, isFnameChar x = true) c hc
      · exact hdp c hc
      · exact (by decide : ∀ x ∈ ".pdf".data, isFnameChar x = true) c hc

/-- Witness for C10: the invariant evaluated on the Acacia Pharma Group
example triple, whose date part is a well-formed ISO date. -/
theorem c10_sanitizer_filename_invariant_witness :
    buildOutputFilename "Acacia Pharma Group" "213800SLDKXWKT6E3381"
      "2022-04-29T10:00:00Z" ≠ "" ∧
    ∀ c ∈ (buildOutputFilename "Acacia Pharma Group" "213800SLDKXWKT6E3381"
      "2022-04-29T10:00:00Z").data, isFnameChar c = true :=
  ⟨(c10_sanitizer_filename_invariant.2 "Acacia Pharma Group" "213800SLDKXWKT6E3381"
      "2022-04-29T10:00:00Z" (by decide)).1,
   (c10_sanitizer_filename_invariant.2 "Acacia Pharma Group" "213800SLDKXWKT6E3381"
      "2022-04-29T10:00:00Z" (by decide)).2.2⟩

end Stori
